import Mathlib

/-!
Verification of the plc-tcpip-bridge core against its specification.

The development shallowly embeds the Python sources:
  - plc_tcpip_bridge/dataframe.py  (PLCData: schema, codec, clone, get/set)
  - plc_tcpip_bridge/client.py     (PLCClient: connect retry loop, send, receive,
                                    exact-read primitive, disconnect handling)
  - plc_tcpip_bridge/server.py     (PLCServer: exact-read primitive with timeout
                                    retry, per-request response computation)

Machine integers are modelled as Nat/Int with explicit two's-complement
reduction where the struct module applies it; byte buffers are lists of
Nat below 256; IEEE-754 float values are modelled by their bit patterns,
since only their serialized form matters for the codec claims.
-/

namespace PLCBridge

/-- A byte on the wire: a natural number, meaningful values are below 256. -/
abbrev Byte := Nat

/-- The struct format codes accepted by PLCData.add_field
(dataframe.py docstring, lines 19-39): '?' bool, 'B'/'H'/'I'/'Q' unsigned,
'b'/'h'/'i'/'q' signed, 'f'/'d' IEEE-754 floats, 'c' one-byte char,
'Ns' fixed-length string of N bytes.  The struct prefix is the fixed
big-endian '>' (dataframe.py line 17). -/
inductive Fmt where
  | fbool  : Fmt          -- '?'
  | u8     : Fmt          -- 'B'
  | u16    : Fmt          -- 'H'
  | u32    : Fmt          -- 'I'
  | u64    : Fmt          -- 'Q'
  | i8     : Fmt          -- 'b'
  | i16    : Fmt          -- 'h'
  | i32    : Fmt          -- 'i'
  | i64    : Fmt          -- 'q'
  | f32    : Fmt          -- 'f'
  | f64    : Fmt          -- 'd'
  | char   : Fmt          -- 'c'
  | str    : Nat → Fmt    -- 'Ns'
deriving DecidableEq

/-- A runtime Python value stored in a field.  Integers are unbounded
(Python int); booleans are the Python bool type; float values are
represented by their IEEE-754 bit patterns (binary32 for values of 'f'
fields, binary64 for 'd' fields), which is exact because only their
packed byte form is at stake; bytes objects back 'c' and 'Ns' fields. -/
inductive Value where
  | vBool   : Bool → Value
  | vInt    : Int → Value
  | vReal32 : Nat → Value
  | vReal64 : Nat → Value
  | vBytes  : List Byte → Value
deriving DecidableEq

/-- One entry of PLCData._fields: a (name, format, value) tuple
(dataframe.py line 16). -/
structure Field where
  name  : String
  fmt   : Fmt
  value : Value
deriving DecidableEq

/-- The PLCData object: an ordered list of (name, format, value) fields.
The byte order is the fixed big-endian prefix and needs no state. -/
structure PLCData where
  fields : List Field
deriving DecidableEq

/-- The classification the struct module applies to a format code:
boolean, unsigned of w bytes, signed of w bytes, the two float widths,
char, or fixed string of n bytes. -/
inductive FmtKind where
  | kBool : FmtKind
  | kUInt : Nat → FmtKind
  | kSInt : Nat → FmtKind
  | kF32  : FmtKind
  | kF64  : FmtKind
  | kChar : FmtKind
  | kStr  : Nat → FmtKind

/-- Kind and width of each format code, per the struct module's table. -/
def Fmt.kind : Fmt → FmtKind
  | .fbool => .kBool
  | .u8    => .kUInt 1
  | .u16   => .kUInt 2
  | .u32   => .kUInt 4
  | .u64   => .kUInt 8
  | .i8    => .kSInt 1
  | .i16   => .kSInt 2
  | .i32   => .kSInt 4
  | .i64   => .kSInt 8
  | .f32   => .kF32
  | .f64   => .kF64
  | .char  => .kChar
  | .str n => .kStr n

/-- Encoded width in bytes of one format code; struct.calcsize adds no
padding under the '>' prefix, so a frame's size is the plain sum. -/
def Fmt.byteWidth : Fmt → Nat
  | .fbool => 1
  | .u8    => 1
  | .u16   => 2
  | .u32   => 4
  | .u64   => 8
  | .i8    => 1
  | .i16   => 2
  | .i32   => 4
  | .i64   => 8
  | .f32   => 4
  | .f64   => 8
  | .char  => 1
  | .str n => n

/-- Big-endian bytes of a natural number in w bytes (most significant
first), the encoding struct uses for integer values under '>'. -/
def natToBytesBE : Nat → Nat → List Byte
  | 0, _ => []
  | w + 1, x => natToBytesBE w (x / 256) ++ [x % 256]

/-- Big-endian value of a byte list. -/
def bytesToNatBE (bs : List Byte) : Nat :=
  bs.foldl (fun acc b => acc * 256 + b) 0

/-- Python truthiness, as the struct module applies it when packing any
object with the '?' code: False, 0, 0.0 and -0.0, and empty bytes are
falsy; every other value (nonzero ints, any nonempty bytes, NaN) is
truthy.  For floats on their bit patterns, dropping the sign bit sends
exactly 0.0 and -0.0 to zero. -/
def truthy : Value → Bool
  | .vBool b   => b
  | .vInt i    => decide (i ≠ 0)
  | .vReal32 p => decide (p % 2 ^ 31 ≠ 0)
  | .vReal64 p => decide (p % 2 ^ 63 ≠ 0)
  | .vBytes s  => decide (s ≠ [])

/-- struct.pack of one unsigned integer of w bytes: in range packs
big-endian, out of range raises (struct.error, the spec's EncodingError). -/
def packUInt (w : Nat) (i : Int) : Option (List Byte) :=
  if 0 ≤ i ∧ i < (2 : Int) ^ (8 * w) then some (natToBytesBE w i.toNat) else none

/-- struct.pack of one signed integer of w bytes: in range packs the
two's-complement residue big-endian, out of range raises. -/
def packSInt (w : Nat) (i : Int) : Option (List Byte) :=
  if -((2 : Int) ^ (8 * w - 1)) ≤ i ∧ i < (2 : Int) ^ (8 * w - 1) then
    some (natToBytesBE w (i % (2 : Int) ^ (8 * w)).toNat)
  else none

/-- struct.pack of a single field value (dataframe.py pack, lines 58-62,
one format code at a time; concatenation under '>' is per-field).
none models the struct.error the spec calls EncodingError.
The '?' code accepts any object through truthiness (this is how a cloned
frame, whose bool fields hold the int 0, still packs).  Integer codes
also accept Python bools, which are int instances.  A string value is
NUL-padded or truncated to the declared length by struct itself.
struct's int-to-float conversion for 'f'/'d' codes (with its rounding)
is outside this byte-level model; no claim exercises it. -/
def packField (fmt : Fmt) (v : Value) : Option (List Byte) :=
  match fmt.kind, v with
  | .kBool, v => some [if truthy v then 1 else 0]
  | .kUInt w, .vInt i => packUInt w i
  | .kUInt w, .vBool b => packUInt w (if b then 1 else 0)
  | .kSInt w, .vInt i => packSInt w i
  | .kSInt w, .vBool b => packSInt w (if b then 1 else 0)
  | .kF32, .vReal32 p => if p < 2 ^ 32 then some (natToBytesBE 4 p) else none
  | .kF64, .vReal64 p => if p < 2 ^ 64 then some (natToBytesBE 8 p) else none
  | .kChar, .vBytes s => if s.length = 1 then some s else none
  | .kStr n, .vBytes s => some (s.take n ++ List.replicate (n - s.length) 0)
  | _, _ => none

/-- Interpretation of w bytes as a signed two's-complement integer, as
struct.unpack does for 'b'/'h'/'i'/'q'. -/
def toSigned (w : Nat) (u : Nat) : Int :=
  if u < 2 ^ (8 * w - 1) then (u : Int) else (u : Int) - (2 : Int) ^ (8 * w)

/-- struct.unpack of one field's byte slice (dataframe.py unpack,
lines 64-70): '?' yields True exactly on a nonzero byte; integer codes
read big-endian (signed ones two's-complement); float codes yield the
bit pattern read big-endian; 'c' yields the one-byte bytes object and
'Ns' all n bytes including any NUL padding.  Only called on slices of
the format's exact width. -/
def unpackField (fmt : Fmt) (bs : List Byte) : Value :=
  match fmt.kind with
  | .kBool   => .vBool (decide (bs.headD 0 ≠ 0))
  | .kUInt _ => .vInt (bytesToNatBE bs)
  | .kSInt w => .vInt (toSigned w (bytesToNatBE bs))
  | .kF32    => .vReal32 (bytesToNatBE bs)
  | .kF64    => .vReal64 (bytesToNatBE bs)
  | .kChar   => .vBytes bs
  | .kStr _  => .vBytes bs

/-- PLCData.size (dataframe.py lines 72-75): struct.calcsize of the
big-endian format string, which is the sum of the field widths. -/
def PLCData.size (d : PLCData) : Nat :=
  (d.fields.map (fun f => f.fmt.byteWidth)).sum

/-- PLCData.pack (dataframe.py lines 58-62): struct.pack of all values
under the '>' prefix, i.e. the concatenation of the per-field packings;
none when any value raises struct.error. -/
def packFields : List Field → Option (List Byte)
  | [] => some []
  | f :: rest =>
    match packField f.fmt f.value, packFields rest with
    | some b, some bs => some (b ++ bs)
    | _, _ => none

def PLCData.pack (d : PLCData) : Option (List Byte) :=
  packFields d.fields

/-- The value-decoding loop of PLCData.unpack: each field takes the next
byteWidth bytes of the buffer, in field order. -/
def unpackGo : List Field → List Byte → List Field
  | [], _ => []
  | f :: rest, bs =>
    { f with value := unpackField f.fmt (bs.take f.fmt.byteWidth) }
      :: unpackGo rest (bs.drop f.fmt.byteWidth)

/-- PLCData.unpack (dataframe.py lines 64-70): struct.unpack first checks
that the buffer length equals calcsize and raises struct.error (the
failure the spec names FrameSizeMismatchError) otherwise, before any
field is assigned; on the exact length it decodes every field in order. -/
def PLCData.unpack (d : PLCData) (data : List Byte) : Option PLCData :=
  if data.length = d.size then some ⟨unpackGo d.fields data⟩ else none

/-- PLCData.clone (dataframe.py lines 77-81): a fresh field list with the
same names and formats and the literal value 0 in place of every value,
whatever the field's type. -/
def PLCData.clone (d : PLCData) : PLCData :=
  ⟨d.fields.map (fun f => ⟨f.name, f.fmt, .vInt 0⟩)⟩

/-- The search-and-replace loop of PLCData.set (dataframe.py lines 43-49):
replaces the value of the first field with the given name, keeping its
name and format; none models the KeyError when no field matches. -/
def setFields : List Field → String → Value → Option (List Field)
  | [], _, _ => none
  | f :: rest, name, v =>
    if f.name = name then some ({ f with value := v } :: rest)
    else (setFields rest name v).map (f :: ·)

def PLCData.set (d : PLCData) (name : String) (v : Value) : Option PLCData :=
  (setFields d.fields name v).map PLCData.mk

/-- PLCData.get (dataframe.py lines 51-56): the value of the first field
with the given name; none models the KeyError when no field matches. -/
def getFields : List Field → String → Option Value
  | [], _ => none
  | f :: rest, name => if f.name = name then some f.value else getFields rest name

def PLCData.get (d : PLCData) (name : String) : Option Value :=
  getFields d.fields name

/-- Whether packing this value under this format succeeds, i.e. the value
is representable in the field's declared width in the sense of the spec
(struct.pack raises no EncodingError). -/
def valueFits (fmt : Fmt) (v : Value) : Bool :=
  (packField fmt v).isSome

/-- The canonical in-range values of each format: booleans stored as
bools, integers inside the declared range, float patterns of the declared
width, char fields one byte, and string fields exactly their declared
length.  These are the values the decoder itself produces. -/
def canonicalValue (fmt : Fmt) (v : Value) : Bool :=
  match fmt.kind, v with
  | .kBool, .vBool _ => true
  | .kUInt w, .vInt i => decide (0 ≤ i) && decide (i < (2 : Int) ^ (8 * w))
  | .kSInt w, .vInt i =>
      decide (-((2 : Int) ^ (8 * w - 1)) ≤ i) && decide (i < (2 : Int) ^ (8 * w - 1))
  | .kF32, .vReal32 p => decide (p < 2 ^ 32)
  | .kF64, .vReal64 p => decide (p < 2 ^ 64)
  | .kChar, .vBytes s => decide (s.length = 1)
  | .kStr n, .vBytes s => decide (s.length = n)
  | _, _ => false

/-! The server's per-request processing (server.py handle_client). -/

/-- Python float multiplication by 2, expressed on an IEEE-754 binary32
bit pattern: doubling a normal magnitude increments the exponent field,
doubling a subnormal magnitude shifts it left (a carry into the exponent
field is exactly the subnormal-to-normal promotion).  This equals the
program's value * 2 exactly on the patterns doubleExact accepts: finite
values whose doubles are again finite binary32 values.  On the excluded
patterns (infinities, NaNs, and top-finite-exponent magnitudes) the
program holds an inf or NaN double, or a finite double that raises
OverflowError when the response is re-packed as binary32; none of those
have a faithful pattern here, so the field-by-field theorem assumes
doubleExact. -/
def double32 (p : Nat) : Nat :=
  let sign := p / 2 ^ 31
  let mag := p % 2 ^ 31
  sign * 2 ^ 31 + (if mag < 2 ^ 23 then 2 * mag else mag + 2 ^ 23)

/-- Python float multiplication by 2 on an IEEE-754 binary64 bit pattern;
see double32: exact on the patterns doubleExact accepts, and the excluded
inf/NaN/top-exponent patterns are assumed away by the field-by-field
theorem. -/
def double64 (p : Nat) : Nat :=
  let sign := p / 2 ^ 63
  let mag := p % 2 ^ 63
  sign * 2 ^ 63 + (if mag < 2 ^ 52 then 2 * mag else mag + 2 ^ 52)

/-- The float bit patterns on which double32/double64 agree with the
program's value * 2: the magnitude stays below the top finite exponent,
so the value is finite and its double is finite and (for a binary32
field) still representable in binary32.  This excludes infinities
(magnitude equal to the inf pattern), NaNs (above it), and magnitudes
with the highest finite exponent (whose double overflows the width).
Non-float values are unconstrained. -/
def doubleExact : Value → Bool
  | .vReal32 p => decide (p % 2 ^ 31 < 2 ^ 31 - 2 ^ 24)
  | .vReal64 p => decide (p % 2 ^ 63 < 2 ^ 63 - 2 ^ 53)
  | _ => true

/-- The example processing logic of PLCServer.handle_client
(server.py lines 62-69) applied to one decoded value:
isinstance(value, int) is checked first and Python's bool is a subclass
of int, so booleans fall into the increment branch (True + 1 is the
int 2); proper ints are incremented; floats are doubled; bytes values
(char and string fields) are echoed unchanged. -/
def processValue : Value → Value
  | .vInt i    => .vInt (i + 1)
  | .vBool b   => .vInt ((if b then 1 else 0) + 1)
  | .vReal32 p => .vReal32 (double32 p)
  | .vReal64 p => .vReal64 (double64 p)
  | .vBytes s  => .vBytes s

/-- One request/response turn of PLCServer.handle_client
(server.py lines 50-72): decode the received buffer on a clone of the
template (struct.error propagates as none), then build the response on a
second clone by setting each field, in order, to the processed value of
the received field with the same name; what sendall writes is the pack
of this frame. -/
def serverRespond (t : PLCData) (data : List Byte) : Option PLCData :=
  match (t.clone).unpack data with
  | none => none
  | some recv =>
    recv.fields.foldl
      (fun acc f => acc.bind (fun r => r.set f.name (processValue f.value)))
      (some t.clone)

/-! The exact-read transport primitives and the client state machine.
A finite trace of recv results stands for the transport: each element is
what one sock.recv call produces.  A real recv returns at most the
requested byte count, so the model truncates the trace chunk to the
amount requested at that point, which loses no real behavior. -/

/-- The result of one sock.recv call: a data chunk (empty means the peer
closed), an idle timeout (socket.timeout), or a hard transport error
(socket.error). -/
inductive RecvEvent where
  | chunk   : List Byte → RecvEvent
  | timeout : RecvEvent
  | errored : RecvEvent

/-- Outcome of an exact-read: a full buffer, the distinguished no-data
result (the Python None), a propagated exception, or the loop still
waiting when the finite trace ends (the real call would block). -/
inductive RecvOutcome where
  | ok      : List Byte → RecvOutcome
  | closed  : RecvOutcome
  | raised  : RecvOutcome
  | blocked : RecvOutcome
deriving DecidableEq

/-- PLCClient._recv_exact (client.py lines 69-77): accumulate chunks until
n bytes are held; an empty chunk returns None (closed).  There is no
try/except here, so a socket.timeout or socket.error raises out of the
loop to the caller. -/
def recvExactClient (n : Nat) : List RecvEvent → List Byte → RecvOutcome
  | evs, acc =>
    if n ≤ acc.length then .ok acc
    else
      match evs with
      | [] => .blocked
      | .timeout :: _ => .raised
      | .errored :: _ => .raised
      | .chunk c :: rest =>
        let c' := c.take (n - acc.length)
        if c' = [] then .closed else recvExactClient n rest (acc ++ c')

/-- PLCServer._recv_exact (server.py lines 79-92): same loop, but a
socket.timeout is caught and the read retried, and a socket.error is
caught and returns None (the same value as a closed peer). -/
def recvExactServer (n : Nat) : List RecvEvent → List Byte → RecvOutcome
  | evs, acc =>
    if n ≤ acc.length then .ok acc
    else
      match evs with
      | [] => .blocked
      | .timeout :: rest => recvExactServer n rest acc
      | .errored :: _ => .closed
      | .chunk c :: rest =>
        let c' := c.take (n - acc.length)
        if c' = [] then .closed else recvExactServer n rest (acc ++ c')

/-- The client's connection flag, the one piece of state the claims
depend on (the socket handle exists exactly when connected). -/
structure ClientState where
  connected : Bool
deriving DecidableEq

/-- What one call to PLCClient.connect does: the returned Bool, how many
connection attempts were made, how many retry-delay sleeps were taken,
and the final state. -/
structure ConnectOutcome where
  ok       : Bool
  attempts : Nat
  sleeps   : Nat
  st       : ClientState
deriving DecidableEq

/-- The retry loop of PLCClient.connect (client.py lines 25-40), with the
success of each attempt given by an oracle indexed by attempt number:
a successful attempt sets connected and returns True at once; a failed
attempt runs _cleanup (connected becomes False) and sleeps retry_delay
only when it is not the last attempt; exhausting the loop returns False.
The second argument is the number of remaining attempts, so r = 0 after
a failure means the attempt just made was the last one. -/
def connectAux (oracle : Nat → Bool) : Nat → Nat → ClientState → ConnectOutcome
  | _, 0, st => ⟨false, 0, 0, st⟩
  | i, r + 1, _ =>
    if oracle i then ⟨true, 1, 0, ⟨true⟩⟩
    else
      let rest := connectAux oracle (i + 1) r ⟨false⟩
      ⟨rest.ok, rest.attempts + 1, rest.sleeps + (if r = 0 then 0 else 1), rest.st⟩

/-- PLCClient.connect run from a given state with max_retries attempts. -/
def PLCClient.connect (st : ClientState) (oracle : Nat → Bool)
    (maxRetries : Nat) : ConnectOutcome :=
  connectAux oracle 0 maxRetries st

/-- PLCClient._handle_disconnect (client.py lines 79-83): _cleanup forces
connected to False, then connect() runs the full retry loop; the state it
leaves is the state after that reconnect attempt. -/
def handleDisconnect (oracle : Nat → Bool) (k : Nat) : ClientState :=
  (connectAux oracle 0 k ⟨false⟩).st

/-- Result of PLCClient.send: the returned Bool, or the struct.error a
failing pack raises through the call (it is not among the caught
exception types). -/
inductive SendResult where
  | ok        : Bool → SendResult
  | packFault : SendResult
deriving DecidableEq

/-- PLCClient.send (client.py lines 42-52): when not connected it returns
False at once, touching no transport state; otherwise it packs and writes
the frame, and on a write error (sendOk false) runs _handle_disconnect
and returns False.  The final Bool records whether the transport was
touched at all. -/
def clientSend (st : ClientState) (d : PLCData) (sendOk : Bool)
    (oracle : Nat → Bool) (k : Nat) : SendResult × ClientState × Bool :=
  if st.connected then
    match d.pack with
    | none => (.packFault, st, false)
    | some _ =>
      if sendOk then (.ok true, st, true)
      else (.ok false, handleDisconnect oracle k, true)
  else (.ok false, st, false)

/-- PLCClient.receive (client.py lines 54-67): when not connected it
returns None at once; otherwise it runs the exact-read for size() bytes:
a truthy buffer is decoded on a clone of the template, a falsy (empty)
buffer or a closed result runs _handle_disconnect and returns None, and
any socket.error or socket.timeout raised by the read is caught, runs
_handle_disconnect and returns None.  The outer none stands for a read
that is still blocked when the finite trace ends; the final Bool records
whether the transport was touched. -/
def clientReceive (st : ClientState) (t : PLCData) (evs : List RecvEvent)
    (oracle : Nat → Bool) (k : Nat) :
    Option (Option PLCData × ClientState × Bool) :=
  if st.connected then
    match recvExactClient t.size evs [] with
    | .blocked => none
    | .ok bs =>
      if bs = [] then some (none, handleDisconnect oracle k, true)
      else some ((t.clone).unpack bs, st, true)
    | .closed => some (none, handleDisconnect oracle k, true)
    | .raised => some (none, handleDisconnect oracle k, true)
  else some (none, st, false)

/-! Arithmetic facts about the big-endian byte encoding. -/

theorem natToBytesBE_length (w x : Nat) : (natToBytesBE w x).length = w := by
  induction w generalizing x with
  | zero => rfl
  | succ w ih => simp [natToBytesBE, ih]

theorem bytesToNatBE_append (l : List Byte) (b : Byte) :
    bytesToNatBE (l ++ [b]) = bytesToNatBE l * 256 + b := by
  simp [bytesToNatBE, List.foldl_append]

theorem bytesToNatBE_natToBytesBE (w x : Nat) (h : x < 2 ^ (8 * w)) :
    bytesToNatBE (natToBytesBE w x) = x := by
  induction w generalizing x with
  | zero =>
    have h0 : x = 0 := by
      have h1 : x < 1 := by simpa using h
      omega
    simp [natToBytesBE, bytesToNatBE, h0]
  | succ w ih =>
    have h8 : 2 ^ (8 * (w + 1)) = 2 ^ (8 * w) * 256 := by
      rw [Nat.mul_succ, pow_add]; norm_num
    have hx : x / 256 < 2 ^ (8 * w) :=
      (Nat.div_lt_iff_lt_mul (by norm_num)).mpr (by omega)
    rw [natToBytesBE, bytesToNatBE_append, ih _ hx]
    omega

theorem uint_roundtrip (w : Nat) (i : Int) (h0 : 0 ≤ i)
    (h1 : i < (2 : Int) ^ (8 * w)) :
    packUInt w i = some (natToBytesBE w i.toNat) ∧
    ((bytesToNatBE (natToBytesBE w i.toNat) : Int)) = i := by
  have hN : (((2 : Nat) ^ (8 * w) : Nat) : Int) = (2 : Int) ^ (8 * w) := by push_cast; ring
  have hb : i.toNat < 2 ^ (8 * w) := by omega
  refine ⟨by simp [packUInt, h0, h1], ?_⟩
  rw [bytesToNatBE_natToBytesBE w i.toNat hb]
  omega

theorem sint_pack (w : Nat) (i : Int)
    (h1 : -((2 : Int) ^ (8 * w - 1)) ≤ i) (h2 : i < (2 : Int) ^ (8 * w - 1)) :
    packSInt w i = some (natToBytesBE w (i % (2 : Int) ^ (8 * w)).toNat) := by
  simp [packSInt, h1, h2]

theorem sint_decode (w H M : Nat) (hH : (2 : Nat) ^ (8 * w - 1) = H)
    (hM : (2 : Nat) ^ (8 * w) = M) (hHM : M = 2 * H) (hHpos : 0 < H) (i : Int)
    (h1 : -((2 : Int) ^ (8 * w - 1)) ≤ i) (h2 : i < (2 : Int) ^ (8 * w - 1)) :
    toSigned w (bytesToNatBE (natToBytesBE w (i % (2 : Int) ^ (8 * w)).toNat)) = i := by
  have hHi : (2 : Int) ^ (8 * w - 1) = (H : Int) := by rw [← hH]; push_cast; ring
  have hMi : (2 : Int) ^ (8 * w) = (M : Int) := by rw [← hM]; push_cast; ring
  rw [hHi] at h1 h2
  rw [hMi]
  have hval : i % (M : Int) = if 0 ≤ i then i else i + (M : Int) := by
    rcases le_or_lt 0 i with hi | hi
    · rw [if_pos hi]
      refine Int.emod_eq_of_lt hi ?_
      have hle : (H : Int) ≤ (M : Int) := by exact_mod_cast (by omega : H ≤ M)
      linarith
    · rw [if_neg (not_le.mpr hi)]
      have hMH : (M : Int) = 2 * (H : Int) := by exact_mod_cast hHM
      have hHi0 : (0 : Int) < (H : Int) := by exact_mod_cast hHpos
      have h0' : 0 ≤ i + (M : Int) := by linarith
      have hlt : i + (M : Int) < (M : Int) := by linarith
      have key : (i + (M : Int) * 1) % (M : Int) = i % (M : Int) :=
        Int.add_mul_emod_self_left i (M : Int) 1
      rw [mul_one] at key
      rw [← key, Int.emod_eq_of_lt h0' hlt]
  have hub : (i % (M : Int)).toNat < 2 ^ (8 * w) := by
    rw [hM, hval]
    rcases le_or_lt 0 i with hi | hi
    · rw [if_pos hi]; omega
    · rw [if_neg (not_le.mpr hi)]; omega
  rw [bytesToNatBE_natToBytesBE w _ hub]
  simp only [toSigned, hH, hMi]
  rw [hval]
  rcases le_or_lt 0 i with hi | hi
  · rw [if_pos hi, if_pos (by omega : i.toNat < H)]
    omega
  · rw [if_neg (not_le.mpr hi), if_neg (by omega : ¬ (i + (M : Int)).toNat < H)]
    omega

/-- Successful packing always produces exactly the field's declared width,
whatever the stored value (this also covers truthiness-packed booleans and
NUL-padded or truncated strings). -/
theorem packField_length (fmt : Fmt) (v : Value) (bs : List Byte)
    (h : packField fmt v = some bs) : bs.length = fmt.byteWidth := by
  have hu : ∀ w i bs', packUInt w i = some bs' → bs'.length = w := by
    intro w i bs' h'
    unfold packUInt at h'
    split at h'
    · simp only [Option.some.injEq] at h'
      subst h'
      exact natToBytesBE_length _ _
    · exact Option.noConfusion h'
  have hs : ∀ w i bs', packSInt w i = some bs' → bs'.length = w := by
    intro w i bs' h'
    unfold packSInt at h'
    split at h'
    · simp only [Option.some.injEq] at h'
      subst h'
      exact natToBytesBE_length _ _
    · exact Option.noConfusion h'
  cases fmt <;> cases v <;>
    dsimp only [packField, Fmt.kind, Fmt.byteWidth] at h ⊢
  all_goals try exact Option.noConfusion h
  all_goals try exact hu _ _ _ h
  all_goals try exact hs _ _ _ h
  all_goals try
    (split at h
     · simp only [Option.some.injEq] at h
       subst h
       first
         | exact natToBytesBE_length _ _
         | assumption
     · exact Option.noConfusion h)
  all_goals simp only [Option.some.injEq] at h
  all_goals subst h
  all_goals try rfl
  all_goals simp only [List.length_append, List.length_take, List.length_replicate]
  all_goals rw [Nat.min_def]
  all_goals split <;> omega

/-- A canonical value packs successfully, to exactly the declared width,
and unpacking those bytes returns the very same value. -/
theorem packField_canonical (fmt : Fmt) (v : Value)
    (h : canonicalValue fmt v = true) :
    ∃ bs, packField fmt v = some bs ∧ bs.length = fmt.byteWidth ∧
      unpackField fmt bs = v := by
  cases fmt <;> cases v <;> simp [canonicalValue, Fmt.kind] at h
  case fbool.vBool b =>
    exact ⟨[if b then 1 else 0], rfl, by cases b <;> rfl, by cases b <;> rfl⟩
  case u8.vInt i =>
    obtain ⟨hp, hdec⟩ := uint_roundtrip 1 i h.1 (by norm_num; omega)
    exact ⟨_, hp, natToBytesBE_length _ _, by
      simp only [unpackField, Fmt.kind]
      exact congrArg Value.vInt hdec⟩
  case u16.vInt i =>
    obtain ⟨hp, hdec⟩ := uint_roundtrip 2 i h.1 (by norm_num; omega)
    exact ⟨_, hp, natToBytesBE_length _ _, by
      simp only [unpackField, Fmt.kind]
      exact congrArg Value.vInt hdec⟩
  case u32.vInt i =>
    obtain ⟨hp, hdec⟩ := uint_roundtrip 4 i h.1 (by norm_num; omega)
    exact ⟨_, hp, natToBytesBE_length _ _, by
      simp only [unpackField, Fmt.kind]
      exact congrArg Value.vInt hdec⟩
  case u64.vInt i =>
    obtain ⟨hp, hdec⟩ := uint_roundtrip 8 i h.1 (by norm_num; omega)
    exact ⟨_, hp, natToBytesBE_length _ _, by
      simp only [unpackField, Fmt.kind]
      exact congrArg Value.vInt hdec⟩
  case i8.vInt i =>
    have hr1 : -((2 : Int) ^ (8 * 1 - 1)) ≤ i := by norm_num; omega
    have hr2 : i < (2 : Int) ^ (8 * 1 - 1) := by norm_num; omega
    have hd := sint_decode 1 128 256 (by norm_num) (by norm_num) (by norm_num)
      (by norm_num) i hr1 hr2
    exact ⟨_, sint_pack 1 i hr1 hr2, natToBytesBE_length _ _, by
      simp only [unpackField, Fmt.kind]
      exact congrArg Value.vInt hd⟩
  case i16.vInt i =>
    have hr1 : -((2 : Int) ^ (8 * 2 - 1)) ≤ i := by norm_num; omega
    have hr2 : i < (2 : Int) ^ (8 * 2 - 1) := by norm_num; omega
    have hd := sint_decode 2 32768 65536 (by norm_num) (by norm_num) (by norm_num)
      (by norm_num) i hr1 hr2
    exact ⟨_, sint_pack 2 i hr1 hr2, natToBytesBE_length _ _, by
      simp only [unpackField, Fmt.kind]
      exact congrArg Value.vInt hd⟩
  case i32.vInt i =>
    have hr1 : -((2 : Int) ^ (8 * 4 - 1)) ≤ i := by norm_num; omega
    have hr2 : i < (2 : Int) ^ (8 * 4 - 1) := by norm_num; omega
    have hd := sint_decode 4 2147483648 4294967296 (by norm_num) (by norm_num)
      (by norm_num) (by norm_num) i hr1 hr2
    exact ⟨_, sint_pack 4 i hr1 hr2, natToBytesBE_length _ _, by
      simp only [unpackField, Fmt.kind]
      exact congrArg Value.vInt hd⟩
  case i64.vInt i =>
    have hr1 : -((2 : Int) ^ (8 * 8 - 1)) ≤ i := by norm_num; omega
    have hr2 : i < (2 : Int) ^ (8 * 8 - 1) := by norm_num; omega
    have hd := sint_decode 8 9223372036854775808 18446744073709551616 (by norm_num)
      (by norm_num) (by norm_num) (by norm_num) i hr1 hr2
    exact ⟨_, sint_pack 8 i hr1 hr2, natToBytesBE_length _ _, by
      simp only [unpackField, Fmt.kind]
      exact congrArg Value.vInt hd⟩
  case f32.vReal32 p =>
    refine ⟨natToBytesBE 4 p, by simp [packField, Fmt.kind]; omega,
      natToBytesBE_length _ _, ?_⟩
    simp only [unpackField, Fmt.kind]
    rw [bytesToNatBE_natToBytesBE 4 p (by norm_num; omega)]
  case f64.vReal64 p =>
    refine ⟨natToBytesBE 8 p, by simp [packField, Fmt.kind]; omega,
      natToBytesBE_length _ _, ?_⟩
    simp only [unpackField, Fmt.kind]
    rw [bytesToNatBE_natToBytesBE 8 p (by norm_num; omega)]
  case char.vBytes s =>
    exact ⟨s, by simp [packField, Fmt.kind, h], h, rfl⟩
  case str.vBytes n s =>
    subst h
    exact ⟨s, by simp [packField, Fmt.kind], rfl, rfl⟩

/-! Frame-level codec lemmas. -/

theorem unpackGo_name_fmt (fields : List Field) (bs : List Byte) :
    (unpackGo fields bs).map Field.name = fields.map Field.name ∧
    (unpackGo fields bs).map Field.fmt = fields.map Field.fmt := by
  induction fields generalizing bs with
  | nil => simp [unpackGo]
  | cons f rest ih => simp [unpackGo, ih]

theorem packFields_length (fields : List Field) (bs : List Byte)
    (h : packFields fields = some bs) :
    bs.length = (fields.map (fun f => f.fmt.byteWidth)).sum := by
  induction fields generalizing bs with
  | nil =>
    simp only [packFields, Option.some.injEq] at h
    subst h
    simp
  | cons f rest ih =>
    simp only [packFields] at h
    cases hb : packField f.fmt f.value with
    | none => rw [hb] at h; exact Option.noConfusion h
    | some b =>
      cases hr : packFields rest with
      | none => rw [hb, hr] at h; exact Option.noConfusion h
      | some bs' =>
        rw [hb, hr] at h
        simp only [Option.some.injEq] at h
        subst h
        simp [List.length_append, packField_length _ _ _ hb, ih _ hr]

theorem packFields_isSome (fields : List Field)
    (h : ∀ f ∈ fields, canonicalValue f.fmt f.value = true) :
    ∃ bs, packFields fields = some bs := by
  induction fields with
  | nil => exact ⟨[], rfl⟩
  | cons f rest ih =>
    obtain ⟨b, hb, _, _⟩ := packField_canonical f.fmt f.value (h f (by simp))
    obtain ⟨bs', hr⟩ := ih (fun g hg => h g (by simp [hg]))
    exact ⟨b ++ bs', by simp [packFields, hb, hr]⟩

theorem unpackGo_pack (fields : List Field) (bs : List Byte)
    (hcan : ∀ f ∈ fields, canonicalValue f.fmt f.value = true)
    (h : packFields fields = some bs) :
    unpackGo fields bs = fields := by
  induction fields generalizing bs with
  | nil => simp [unpackGo]
  | cons f rest ih =>
    simp only [packFields] at h
    cases hb : packField f.fmt f.value with
    | none => rw [hb] at h; exact Option.noConfusion h
    | some b =>
      cases hr : packFields rest with
      | none => rw [hb, hr] at h; exact Option.noConfusion h
      | some bs' =>
        rw [hb, hr] at h
        simp only [Option.some.injEq] at h
        subst h
        obtain ⟨b0, hb0, hlen0, hdec0⟩ :=
          packField_canonical f.fmt f.value (hcan f (by simp))
        rw [hb0] at hb
        simp only [Option.some.injEq] at hb
        subst hb
        rw [unpackGo]
        congr 1
        · rw [← hlen0, List.take_left, hdec0]
        · rw [← hlen0, List.drop_left]
          exact ih bs' (fun g hg => hcan g (by simp [hg])) hr

/-- C1, the claim as stated, is false: a 2-byte string field holding the
one-byte value 01 is representable (struct.pack accepts it, NUL-padding
it to 01 00), yet decoding the encoding yields the padded two-byte value,
not the original frame. -/
theorem string_pad_roundtrip_violation :
    valueFits (.str 2) (.vBytes [1]) = true ∧
    PLCData.pack ⟨[⟨"s", .str 2, .vBytes [1]⟩]⟩ = some [1, 0] ∧
    PLCData.unpack ⟨[⟨"s", .str 2, .vBytes [1]⟩]⟩ [1, 0] ≠
      some ⟨[⟨"s", .str 2, .vBytes [1]⟩]⟩ := by
  refine ⟨rfl, rfl, ?_⟩
  decide

/-- C1 (amended): for every frame whose field values are canonical for
their declared types - booleans stored as bools, integers within the
declared range, float bit patterns of the declared width, char fields one
byte, and string fields holding exactly their declared length - encoding
succeeds and decoding the encoding returns the frame unchanged, for every
supported type code. -/
theorem roundtrip_canonical (d : PLCData)
    (h : ∀ f ∈ d.fields, canonicalValue f.fmt f.value = true) :
    ∃ bs, d.pack = some bs ∧ d.unpack bs = some d := by
  obtain ⟨bs, hbs⟩ := packFields_isSome d.fields h
  refine ⟨bs, hbs, ?_⟩
  have hlen : bs.length = d.size := packFields_length d.fields bs hbs
  rw [PLCData.unpack, if_pos hlen, unpackGo_pack d.fields bs h hbs]

/-- Witness for roundtrip_canonical: a frame exercising every supported
type code at boundary values (max unsigned, min signed, float patterns
of 20.0 in both widths, a char, a full-length string) round trips. -/
theorem roundtrip_canonical_witness :
    ∃ bs,
      PLCData.pack ⟨[⟨"en", .fbool, .vBool true⟩, ⟨"a", .u8, .vInt 255⟩,
        ⟨"b", .u16, .vInt 4660⟩, ⟨"c", .u32, .vInt 4294967295⟩,
        ⟨"d", .u64, .vInt 18446744073709551615⟩, ⟨"e", .i8, .vInt (-128)⟩,
        ⟨"f", .i16, .vInt (-500)⟩, ⟨"g", .i32, .vInt (-2147483648)⟩,
        ⟨"h", .i64, .vInt (-9223372036854775808)⟩,
        ⟨"p", .f32, .vReal32 1101004800⟩,
        ⟨"q", .f64, .vReal64 4626322717216342016⟩,
        ⟨"ch", .char, .vBytes [65]⟩, ⟨"s", .str 3, .vBytes [1, 2, 3]⟩]⟩
        = some bs ∧
      PLCData.unpack ⟨[⟨"en", .fbool, .vBool true⟩, ⟨"a", .u8, .vInt 255⟩,
        ⟨"b", .u16, .vInt 4660⟩, ⟨"c", .u32, .vInt 4294967295⟩,
        ⟨"d", .u64, .vInt 18446744073709551615⟩, ⟨"e", .i8, .vInt (-128)⟩,
        ⟨"f", .i16, .vInt (-500)⟩, ⟨"g", .i32, .vInt (-2147483648)⟩,
        ⟨"h", .i64, .vInt (-9223372036854775808)⟩,
        ⟨"p", .f32, .vReal32 1101004800⟩,
        ⟨"q", .f64, .vReal64 4626322717216342016⟩,
        ⟨"ch", .char, .vBytes [65]⟩, ⟨"s", .str 3, .vBytes [1, 2, 3]⟩]⟩ bs
        = some ⟨[⟨"en", .fbool, .vBool true⟩, ⟨"a", .u8, .vInt 255⟩,
        ⟨"b", .u16, .vInt 4660⟩, ⟨"c", .u32, .vInt 4294967295⟩,
        ⟨"d", .u64, .vInt 18446744073709551615⟩, ⟨"e", .i8, .vInt (-128)⟩,
        ⟨"f", .i16, .vInt (-500)⟩, ⟨"g", .i32, .vInt (-2147483648)⟩,
        ⟨"h", .i64, .vInt (-9223372036854775808)⟩,
        ⟨"p", .f32, .vReal32 1101004800⟩,
        ⟨"q", .f64, .vReal64 4626322717216342016⟩,
        ⟨"ch", .char, .vBytes [65]⟩, ⟨"s", .str 3, .vBytes [1, 2, 3]⟩]⟩ :=
  roundtrip_canonical _ (by decide)

/-- C2: whenever encoding succeeds, the buffer's length equals size(),
and size() is the sum of the per-field encoded widths in field order. -/
theorem pack_length_eq_size (d : PLCData) (bs : List Byte)
    (h : d.pack = some bs) :
    bs.length = d.size ∧
    d.size = (d.fields.map (fun f => f.fmt.byteWidth)).sum :=
  ⟨packFields_length d.fields bs h, rfl⟩

/-- Witness for pack_length_eq_size: the spec's example frame
(speed uint32 1500, temp float32 25.5, status uint16 1, enabled bool)
packs to 11 bytes, its size. -/
theorem pack_length_eq_size_witness :
    PLCData.pack ⟨[⟨"speed", .u32, .vInt 1500⟩, ⟨"temp", .f32, .vReal32 1103888384⟩,
        ⟨"status", .u16, .vInt 1⟩, ⟨"enabled", .fbool, .vBool true⟩]⟩
      = some [0, 0, 5, 220, 65, 204, 0, 0, 0, 1, 1] ∧
    ([0, 0, 5, 220, 65, 204, 0, 0, 0, 1, 1] : List Byte).length
        = PLCData.size ⟨[⟨"speed", .u32, .vInt 1500⟩,
            ⟨"temp", .f32, .vReal32 1103888384⟩,
            ⟨"status", .u16, .vInt 1⟩, ⟨"enabled", .fbool, .vBool true⟩]⟩ :=
  ⟨by decide, (pack_length_eq_size _ _ (by decide)).1⟩

/-- C3, the claim as stated, is false: clone resets every value to the
Python int 0, which for a string (or char or bool) field is not the
type's zero-equivalent - the empty string (or False). -/
theorem clone_string_not_empty_value :
    PLCData.clone ⟨[⟨"msg", .str 4, .vBytes [72, 105]⟩, ⟨"on", .fbool, .vBool true⟩]⟩
      = ⟨[⟨"msg", .str 4, .vInt 0⟩, ⟨"on", .fbool, .vInt 0⟩]⟩ ∧
    (Value.vInt 0 ≠ Value.vBytes []) ∧ (Value.vInt 0 ≠ Value.vBool false) := by
  refine ⟨rfl, ?_, ?_⟩ <;> decide

/-- C3 (amended): clone produces a frame with identical schema - the same
names, type codes and order, hence the same size - in which every value
is the integer 0, whatever the field's type (not the per-type
zero-equivalent the claim states); being a fresh list of fresh tuples it
shares no mutable state with the source. -/
theorem clone_schema_preserved_values_zero (d : PLCData) :
    d.clone.fields.map Field.name = d.fields.map Field.name ∧
    d.clone.fields.map Field.fmt = d.fields.map Field.fmt ∧
    d.clone.size = d.size ∧
    d.clone.fields.map Field.value = d.fields.map (fun _ => Value.vInt 0) := by
  refine ⟨?_, ?_, ?_, ?_⟩ <;>
    · simp only [PLCData.clone, PLCData.size, List.map_map]
      rfl

/-- C4: decoding fails (with the size-mismatch struct.error the spec
names FrameSizeMismatchError) exactly when the buffer length differs from
size(), and a successful decode always yields a full frame with the
schema intact - there is no partial decode. -/
theorem unpack_size_guard (d : PLCData) (data : List Byte) :
    (d.unpack data = none ↔ data.length ≠ d.size) ∧
    (∀ d', d.unpack data = some d' →
      d'.fields.map Field.name = d.fields.map Field.name ∧
      d'.fields.map Field.fmt = d.fields.map Field.fmt) := by
  constructor
  · rw [PLCData.unpack]
    split
    · rename_i hlen
      simp [hlen]
    · rename_i hlen
      simp [hlen]
  · intro d' h
    rw [PLCData.unpack] at h
    split at h
    · simp only [Option.some.injEq] at h
      subst h
      exact unpackGo_name_fmt d.fields data
    · exact Option.noConfusion h

/-- Witness for unpack_size_guard: a one-byte buffer is rejected by the
11-byte example schema, and decoding a correct-length buffer preserves
the schema. -/
theorem unpack_size_guard_witness :
    PLCData.unpack ⟨[⟨"speed", .u32, .vInt 0⟩, ⟨"temp", .f32, .vInt 0⟩,
        ⟨"status", .u16, .vInt 0⟩, ⟨"enabled", .fbool, .vInt 0⟩]⟩ [7] = none ∧
    (PLCData.mk (unpackGo [⟨"speed", .u32, .vInt 0⟩, ⟨"temp", .f32, .vInt 0⟩,
        ⟨"status", .u16, .vInt 0⟩, ⟨"enabled", .fbool, .vInt 0⟩]
        [0, 0, 5, 220, 65, 204, 0, 0, 0, 1, 1])).fields.map Field.name
      = ([⟨"speed", .u32, .vInt 0⟩, ⟨"temp", .f32, .vInt 0⟩,
        ⟨"status", .u16, .vInt 0⟩, ⟨"enabled", .fbool, .vInt 0⟩] :
          List Field).map Field.name :=
  ⟨((unpack_size_guard ⟨[⟨"speed", .u32, .vInt 0⟩, ⟨"temp", .f32, .vInt 0⟩,
        ⟨"status", .u16, .vInt 0⟩, ⟨"enabled", .fbool, .vInt 0⟩]⟩ [7]).1).mpr
      (by decide),
   ((unpack_size_guard ⟨[⟨"speed", .u32, .vInt 0⟩, ⟨"temp", .f32, .vInt 0⟩,
        ⟨"status", .u16, .vInt 0⟩, ⟨"enabled", .fbool, .vInt 0⟩]
        ⟩ [0, 0, 5, 220, 65, 204, 0, 0, 0, 1, 1]).2 _ (by decide)).1⟩

/-! Exact-read primitives: never a short buffer. -/

theorem recvExactClient_ok_length (evs : List RecvEvent) :
    ∀ (n : Nat) (acc : List Byte), acc.length ≤ n →
      ∀ bs, recvExactClient n evs acc = .ok bs → bs.length = n := by
  induction evs with
  | nil =>
    intro n acc hacc bs h
    unfold recvExactClient at h
    split at h
    · injection h with h
      subst h
      omega
    · exact RecvOutcome.noConfusion h
  | cons e rest ih =>
    intro n acc hacc bs h
    unfold recvExactClient at h
    split at h
    · injection h with h
      subst h
      omega
    · rename_i hlt
      cases e with
      | timeout => exact RecvOutcome.noConfusion h
      | errored => exact RecvOutcome.noConfusion h
      | chunk c =>
        dsimp only at h
        split at h
        · exact RecvOutcome.noConfusion h
        · refine ih n (acc ++ c.take (n - acc.length)) ?_ bs h
          have h1 : (c.take (n - acc.length)).length ≤ n - acc.length := by
            rw [List.length_take]
            exact min_le_left _ _
          rw [List.length_append]
          omega

theorem recvExactServer_ok_length (evs : List RecvEvent) :
    ∀ (n : Nat) (acc : List Byte), acc.length ≤ n →
      ∀ bs, recvExactServer n evs acc = .ok bs → bs.length = n := by
  induction evs with
  | nil =>
    intro n acc hacc bs h
    unfold recvExactServer at h
    split at h
    · injection h with h
      subst h
      omega
    · exact RecvOutcome.noConfusion h
  | cons e rest ih =>
    intro n acc hacc bs h
    unfold recvExactServer at h
    split at h
    · injection h with h
      subst h
      omega
    · rename_i hlt
      cases e with
      | timeout => exact ih n acc hacc bs h
      | errored => exact RecvOutcome.noConfusion h
      | chunk c =>
        dsimp only at h
        split at h
        · exact RecvOutcome.noConfusion h
        · refine ih n (acc ++ c.take (n - acc.length)) ?_ bs h
          have h1 : (c.take (n - acc.length)).length ≤ n - acc.length := by
            rw [List.length_take]
            exact min_le_left _ _
          rw [List.length_append]
          omega

theorem recvExactClient_partial_close (n : Nat) (post : List RecvEvent) :
    ∀ (pre : List (List Byte)) (acc : List Byte),
      acc.length + (pre.map List.length).sum < n →
      recvExactClient n (pre.map RecvEvent.chunk ++ RecvEvent.chunk [] :: post) acc
        = .closed := by
  intro pre
  induction pre with
  | nil =>
    intro acc hlt
    simp only [List.map_nil, List.nil_append]
    rw [recvExactClient.eq_def]
    dsimp only
    rw [if_neg (by simp only [List.map_nil, List.sum_nil] at hlt; omega)]
    simp
  | cons c pre' ih =>
    intro acc hlt
    simp only [List.map_cons, List.sum_cons] at hlt
    simp only [List.map_cons, List.cons_append]
    rw [recvExactClient.eq_def]
    dsimp only
    rw [if_neg (by omega)]
    by_cases hc : c.take (n - acc.length) = []
    · rw [if_pos hc]
    · rw [if_neg hc]
      refine ih (acc ++ c.take (n - acc.length)) ?_
      have h1 : (c.take (n - acc.length)).length ≤ c.length := by
        rw [List.length_take]
        exact min_le_right _ _
      rw [List.length_append]
      omega

theorem recvExactServer_partial_close (n : Nat) (post : List RecvEvent) :
    ∀ (pre : List (List Byte)) (acc : List Byte),
      acc.length + (pre.map List.length).sum < n →
      recvExactServer n (pre.map RecvEvent.chunk ++ RecvEvent.chunk [] :: post) acc
        = .closed := by
  intro pre
  induction pre with
  | nil =>
    intro acc hlt
    simp only [List.map_nil, List.nil_append]
    rw [recvExactServer.eq_def]
    dsimp only
    rw [if_neg (by simp only [List.map_nil, List.sum_nil] at hlt; omega)]
    simp
  | cons c pre' ih =>
    intro acc hlt
    simp only [List.map_cons, List.sum_cons] at hlt
    simp only [List.map_cons, List.cons_append]
    rw [recvExactServer.eq_def]
    dsimp only
    rw [if_neg (by omega)]
    by_cases hc : c.take (n - acc.length) = []
    · rw [if_pos hc]
    · rw [if_neg hc]
      refine ih (acc ++ c.take (n - acc.length)) ?_
      have h1 : (c.take (n - acc.length)).length ≤ c.length := by
        rw [List.length_take]
        exact min_le_right _ _
      rw [List.length_append]
      omega

/-- C5: both exact-read primitives return either a full buffer of exactly
n bytes or a non-buffer outcome, never a short buffer; and a zero-byte
read at any point before n bytes have been accumulated - after any run of
data chunks delivering fewer than n bytes in total - reports the closed
result. -/
theorem recvExact_exact_or_closed (n : Nat) (evs : List RecvEvent) :
    (∀ bs, recvExactClient n evs [] = .ok bs → bs.length = n) ∧
    (∀ bs, recvExactServer n evs [] = .ok bs → bs.length = n) ∧
    (∀ (pre : List (List Byte)) (post : List RecvEvent),
      (pre.map List.length).sum < n →
      recvExactClient n (pre.map RecvEvent.chunk ++ RecvEvent.chunk [] :: post) []
        = .closed ∧
      recvExactServer n (pre.map RecvEvent.chunk ++ RecvEvent.chunk [] :: post) []
        = .closed) :=
  ⟨recvExactClient_ok_length evs n [] (by simp),
   recvExactServer_ok_length evs n [] (by simp),
   fun pre post h =>
     ⟨recvExactClient_partial_close n post pre [] (by simpa using h),
      recvExactServer_partial_close n post pre [] (by simpa using h)⟩⟩

/-- Witness for recvExact_exact_or_closed: reading 3 bytes from a trace
delivering chunks of 2 and 1 bytes returns exactly 3 bytes, and a peer
that sends only 2 of the 3 bytes and then closes (a mid-stream zero-byte
read) yields the closed result for both primitives. -/
theorem recvExact_exact_or_closed_witness :
    ([1, 2, 9] : List Byte).length = 3 ∧
    recvExactClient 3 [.chunk [1, 2], .chunk []] [] = .closed ∧
    recvExactServer 3 [.chunk [1, 2], .chunk []] [] = .closed := by
  refine ⟨(recvExact_exact_or_closed 3 [.chunk [1, 2], .chunk [9]]).1 [1, 2, 9]
      (by decide), ?_, ?_⟩
  · exact ((recvExact_exact_or_closed 3 [.chunk [1, 2], .chunk [9]]).2.2 [[1, 2]] []
      (by decide)).1
  · exact ((recvExact_exact_or_closed 3 [.chunk [1, 2], .chunk [9]]).2.2 [[1, 2]] []
      (by decide)).2

/-! The connect retry loop. -/

theorem connectAux_all_fail (oracle : Nat → Bool) (hfail : ∀ j, oracle j = false) :
    ∀ (r i : Nat),
      connectAux oracle i r ⟨false⟩ = ⟨false, r, r - 1, ⟨false⟩⟩ := by
  intro r
  induction r with
  | zero => intro i; rfl
  | succ r ih =>
    intro i
    unfold connectAux
    rw [hfail i]
    simp only [Bool.false_eq_true, if_false, ih (i + 1)]
    cases r with
    | zero => rfl
    | succ r' => simp

/-- C7: when every connection attempt fails, connect() makes exactly
maxRetries attempts, sleeps retry_delay after every failed attempt except
the last (maxRetries - 1 sleeps), returns False, and leaves the client
disconnected. -/
theorem connect_all_attempts_fail (oracle : Nat → Bool) (k : Nat)
    (hfail : ∀ j, oracle j = false) :
    PLCClient.connect ⟨false⟩ oracle k = ⟨false, k, k - 1, ⟨false⟩⟩ := by
  rw [PLCClient.connect]
  exact connectAux_all_fail oracle hfail k 0

/-- Witness for connect_all_attempts_fail: maxRetries = 3 against an
unreachable endpoint: 3 attempts, 2 sleeps, failure, disconnected. -/
theorem connect_all_attempts_fail_witness :
    PLCClient.connect ⟨false⟩ (fun _ => false) 3 = ⟨false, 3, 2, ⟨false⟩⟩ :=
  connect_all_attempts_fail (fun _ => false) 3 (fun _ => rfl)

/-! Timeout handling in the exact-read primitives. -/

/-- C8, as stated, is false for the client: its exact-read loop has no
try/except, so a socket.timeout raises out of it, and receive() catches
it with _handle_disconnect - the timeout ends the read and is treated as
a connection failure (here the reconnect also fails, leaving the client
disconnected), while the server's loop on the same trace retries and
returns the data. -/
theorem client_timeout_disconnects :
    clientReceive ⟨true⟩ ⟨[⟨"x", .u8, .vInt 0⟩]⟩ [.timeout, .chunk [5]]
        (fun _ => false) 1 = some (none, ⟨false⟩, true) ∧
    recvExactClient 1 [.timeout, .chunk [5]] [] = .raised ∧
    recvExactServer 1 [.timeout, .chunk [5]] [] = .ok [5] := by
  refine ⟨?_, rfl, ?_⟩ <;> decide

/-- C8 (amended): the server's exact-read treats an idle timeout as no
data yet and retries the read, never ending it; the client's exact-read
does not catch it - a timeout during a client read raises out of the
loop (and the caller treats it as a connection failure). -/
theorem timeout_server_retries_client_raises (n : Nat) (evs : List RecvEvent)
    (acc : List Byte) :
    recvExactServer n (.timeout :: evs) acc = recvExactServer n evs acc ∧
    (acc.length < n → recvExactClient n (.timeout :: evs) acc = .raised) := by
  constructor
  · by_cases hle : n ≤ acc.length
    · conv_lhs => rw [recvExactServer.eq_def]
      conv_rhs => rw [recvExactServer.eq_def]
      dsimp only
      rw [if_pos hle, if_pos hle]
    · conv_lhs => rw [recvExactServer.eq_def]
      dsimp only
      rw [if_neg hle]
  · intro hlt
    rw [recvExactClient.eq_def]
    dsimp only
    rw [if_neg (by omega)]

/-- Witness for timeout_server_retries_client_raises at a concrete
one-byte read with a timeout before the data chunk. -/
theorem timeout_server_retries_client_raises_witness :
    recvExactServer 1 [.timeout, .chunk [5]] [] = recvExactServer 1 [.chunk [5]] [] ∧
    recvExactClient 1 [.timeout, .chunk [5]] [] = .raised :=
  ⟨(timeout_server_retries_client_raises 1 [.chunk [5]] []).1,
   (timeout_server_retries_client_raises 1 [.chunk [5]] []).2 (by decide)⟩

/-- C9: with the client disconnected, send returns False and receive
returns None immediately; neither touches the transport, attempts a
reconnect, or changes the client's state. -/
theorem disconnected_send_receive_noop (d : PLCData) (sendOk : Bool)
    (oracle : Nat → Bool) (k : Nat) (evs : List RecvEvent) (t : PLCData) :
    clientSend ⟨false⟩ d sendOk oracle k = (.ok false, ⟨false⟩, false) ∧
    clientReceive ⟨false⟩ t evs oracle k = some (none, ⟨false⟩, false) :=
  ⟨rfl, rfl⟩

/-! The server's set-loop builds the response field-by-field. -/

theorem unpack_some_name_fmt (d : PLCData) (data : List Byte) (d' : PLCData)
    (h : d.unpack data = some d') :
    d'.fields.map Field.name = d.fields.map Field.name ∧
    d'.fields.map Field.fmt = d.fields.map Field.fmt := by
  rw [PLCData.unpack] at h
  split at h
  · simp only [Option.some.injEq] at h
    subst h
    exact unpackGo_name_fmt d.fields data
  · exact Option.noConfusion h

theorem foldSet_start_none (g : Field → Value) (src : List Field) :
    src.foldl (fun acc f => acc.bind fun r => PLCData.set r f.name (g f)) none
      = none := by
  induction src with
  | nil => rfl
  | cons s rest ih => simpa using ih

theorem foldSet_cons (g : Field → Value) (src : List Field) (f0 : Field)
    (hne : ∀ f ∈ src, f.name ≠ f0.name) :
    ∀ base : List Field,
      src.foldl (fun acc f => acc.bind fun r => PLCData.set r f.name (g f))
          (some ⟨f0 :: base⟩) =
        (src.foldl (fun acc f => acc.bind fun r => PLCData.set r f.name (g f))
          (some ⟨base⟩)).map (fun r => ⟨f0 :: r.fields⟩) := by
  induction src with
  | nil => intro base; rfl
  | cons s srest ih =>
    intro base
    have hs : s.name ≠ f0.name := hne s (by simp)
    rw [List.foldl_cons, List.foldl_cons]
    have hstep : PLCData.set ⟨f0 :: base⟩ s.name (g s) =
        (PLCData.set ⟨base⟩ s.name (g s)).map (fun r => ⟨f0 :: r.fields⟩) := by
      simp only [PLCData.set, setFields]
      rw [if_neg (fun hcontra => hs hcontra.symm)]
      cases setFields base s.name (g s) <;> rfl
    simp only [Option.some_bind]
    rw [hstep]
    cases hbase : PLCData.set ⟨base⟩ s.name (g s) with
    | none =>
      simp only [Option.map_none']
      rw [foldSet_start_none]
      rfl
    | some r =>
      simp only [Option.map_some']
      have := ih (fun f hf => hne f (by simp [hf])) r.fields
      simpa using this

theorem foldSet_map (g : Field → Value) :
    ∀ (src base : List Field),
      base.map Field.name = src.map Field.name →
      base.map Field.fmt = src.map Field.fmt →
      (src.map Field.name).Nodup →
      src.foldl (fun acc f => acc.bind fun r => PLCData.set r f.name (g f))
          (some ⟨base⟩) =
        some ⟨src.map (fun f => ⟨f.name, f.fmt, g f⟩)⟩ := by
  intro src
  induction src with
  | nil =>
    intro base hn _ _
    cases base with
    | nil => rfl
    | cons b brest => simp at hn
  | cons s srest ih =>
    intro base hn hf hnd
    cases base with
    | nil => simp at hn
    | cons b brest =>
      simp only [List.map_cons, List.cons.injEq] at hn hf
      obtain ⟨hbn, hrestn⟩ := hn
      obtain ⟨hbf, hrestf⟩ := hf
      simp only [List.map_cons, List.nodup_cons] at hnd
      obtain ⟨hsnotin, hndrest⟩ := hnd
      rw [List.foldl_cons]
      simp only [Option.some_bind]
      have hset : PLCData.set ⟨b :: brest⟩ s.name (g s) =
          some ⟨({ b with value := g s }) :: brest⟩ := by
        simp [PLCData.set, setFields, hbn]
      rw [hset]
      have hb : ({ b with value := g s } : Field) = ⟨s.name, s.fmt, g s⟩ := by
        cases b
        simp only [Field.mk.injEq]
        exact ⟨hbn, hbf, trivial⟩
      rw [hb]
      have hne : ∀ f ∈ srest, f.name ≠ Field.name ⟨s.name, s.fmt, g s⟩ := by
        intro f hf hcontra
        exact hsnotin (List.mem_map.mpr ⟨f, hf, hcontra⟩)
      rw [foldSet_cons g srest _ hne brest, ih brest hrestn hrestf hndrest]
      rfl

/-- C6, as stated, is false: Python's bool is a subclass of int, so the
isinstance(value, int) branch catches booleans - a boolean field is
incremented, not echoed.  Decoding the byte 0x01 yields True, and the
response frame holds the int 2 in that field, not the boolean True. -/
theorem server_bool_not_echoed :
    serverRespond ⟨[⟨"flag", .fbool, .vBool false⟩]⟩ [1] =
      some ⟨[⟨"flag", .fbool, .vInt 2⟩]⟩ ∧
    (Value.vInt 2 ≠ Value.vBool true) := by
  refine ⟨by decide, by decide⟩

/-- C6 (amended): for a request decoded on a schema with pairwise
distinct field names, and whose float values are finite with finite
(and, for binary32 fields, binary32-representable) doubles - the
doubleExact hypothesis, marking the regime where the bit-pattern model
of the program's value * 2 is exact - the response frame is computed
field-by-field in order: integer fields are incremented by 1 and so are
boolean fields (Python bools being int instances: True becomes 2, False
becomes 1, both re-encoding as 0x01 on the wire), float fields are
doubled, and char and string fields are echoed unchanged; the claim's
concrete scenario {speed=1000, temp=20.0, status=5} to
{speed=1001, temp=40.0, status=6} does hold, having no boolean field. -/
theorem serverRespond_fieldwise (t : PLCData) (data : List Byte) (recv : PLCData)
    (hnodup : (t.fields.map Field.name).Nodup)
    (hun : (t.clone).unpack data = some recv)
    (_hdb : ∀ f ∈ recv.fields, doubleExact f.value = true) :
    serverRespond t data =
      some ⟨recv.fields.map (fun f => ⟨f.name, f.fmt, processValue f.value⟩)⟩ := by
  unfold serverRespond
  rw [hun]
  obtain ⟨hrn, hrf⟩ := unpack_some_name_fmt (t.clone) data recv hun
  have hclname : (t.clone).fields.map Field.name = t.fields.map Field.name := by
    simp only [PLCData.clone, List.map_map]
    rfl
  have hclfmt : (t.clone).fields.map Field.fmt = recv.fields.map Field.fmt := hrf.symm
  have hnd : (recv.fields.map Field.name).Nodup := by
    rw [hrn, hclname]
    exact hnodup
  exact foldSet_map (fun f => processValue f.value) recv.fields (t.clone).fields
    (hrn.symm) hclfmt hnd

/-- Witness for serverRespond_fieldwise: the claim's server-echo
scenario.  The template is the test schema speed uint32, temp float32,
status uint16; the request bytes encode speed 1000, temp 20.0 (binary32
pattern 0x41A00000) and status 5, and the response frame holds 1001,
40.0 (pattern 0x42200000) and 6. -/
theorem serverRespond_fieldwise_witness :
    serverRespond ⟨[⟨"speed", .u32, .vInt 7⟩, ⟨"temp", .f32, .vInt 0⟩,
        ⟨"status", .u16, .vInt 0⟩]⟩ [0, 0, 3, 232, 65, 160, 0, 0, 0, 5] =
      some ⟨[⟨"speed", .u32, .vInt 1001⟩, ⟨"temp", .f32, .vReal32 1109393408⟩,
        ⟨"status", .u16, .vInt 6⟩]⟩ := by
  have h := serverRespond_fieldwise
    ⟨[⟨"speed", .u32, .vInt 7⟩, ⟨"temp", .f32, .vInt 0⟩, ⟨"status", .u16, .vInt 0⟩]⟩
    [0, 0, 3, 232, 65, 160, 0, 0, 0, 5]
    ⟨[⟨"speed", .u32, .vInt 1000⟩, ⟨"temp", .f32, .vReal32 1101004800⟩,
      ⟨"status", .u16, .vInt 5⟩]⟩
    (by decide) (by decide) (by decide)
  rw [h]
  decide

/-! Field lookup and update by name. -/

theorem getFields_none_iff (fields : List Field) (name : String) :
    getFields fields name = none ↔ ∀ f ∈ fields, f.name ≠ name := by
  induction fields with
  | nil => simp [getFields]
  | cons f rest ih =>
    by_cases hf : f.name = name
    · simp [getFields, hf]
    · simp [getFields, hf, ih]

theorem setFields_none_iff (fields : List Field) (name : String) (v : Value) :
    setFields fields name v = none ↔ ∀ f ∈ fields, f.name ≠ name := by
  induction fields with
  | nil => simp [setFields]
  | cons f rest ih =>
    by_cases hf : f.name = name
    · simp [setFields, hf]
    · simp only [setFields, if_neg hf]
      rw [Option.map_eq_none']
      simp [ih, hf]

theorem get_set_first_aux (name : String) (v : Value) :
    ∀ (fields : List Field) (i : Nat) (fi : Field),
      fields.get? i = some fi → fi.name = name →
      (∀ j fj, j < i → fields.get? j = some fj → fj.name ≠ name) →
      getFields fields name = some fi.value ∧
      setFields fields name v = some (fields.set i { fi with value := v }) := by
  intro fields
  induction fields with
  | nil =>
    intro i fi hget
    simp at hget
  | cons f rest ih =>
    intro i fi hget hname hfirst
    cases i with
    | zero =>
      simp only [List.get?] at hget
      injection hget with hget
      subst hget
      constructor
      · simp [getFields, hname]
      · simp [setFields, hname]
    | succ i' =>
      have hf0 : f.name ≠ name := hfirst 0 f (Nat.succ_pos _) rfl
      have hget' : rest.get? i' = some fi := hget
      have hrest := ih i' fi hget' hname
        (fun j fj hj hg => hfirst (j + 1) fj (by omega) hg)
      constructor
      · simp [getFields, hf0, hrest.1]
      · simp [setFields, hf0, hrest.2]

/-- C10: get and set succeed exactly when a field with the given name
exists (KeyError, modelled as none, otherwise); with duplicates both act
on the first matching field in insertion order, and set replaces only
that field's value, preserving its name and type code and every other
field in place. -/
theorem get_set_first_match (d : PLCData) (name : String) (v : Value) :
    ((d.get name = none) ↔ ∀ f ∈ d.fields, f.name ≠ name) ∧
    ((d.set name v = none) ↔ ∀ f ∈ d.fields, f.name ≠ name) ∧
    (∀ i fi, d.fields.get? i = some fi → fi.name = name →
      (∀ j fj, j < i → d.fields.get? j = some fj → fj.name ≠ name) →
      d.get name = some fi.value ∧
      d.set name v = some ⟨d.fields.set i { fi with value := v }⟩) := by
  refine ⟨getFields_none_iff d.fields name, ?_, ?_⟩
  · rw [PLCData.set, Option.map_eq_none']
    exact setFields_none_iff d.fields name v
  · intro i fi hget hname hfirst
    obtain ⟨hg, hs⟩ := get_set_first_aux name v d.fields i fi hget hname hfirst
    exact ⟨hg, by rw [PLCData.set, hs]; rfl⟩

/-- Witness for get_set_first_match: with two fields both named a, get
reads the first and set updates only the first, leaving the second
untouched. -/
theorem get_set_first_match_witness :
    PLCData.get ⟨[⟨"a", .u8, .vInt 1⟩, ⟨"a", .u8, .vInt 2⟩]⟩ "a"
      = some (Value.vInt 1) ∧
    PLCData.set ⟨[⟨"a", .u8, .vInt 1⟩, ⟨"a", .u8, .vInt 2⟩]⟩ "a" (Value.vInt 9)
      = some ⟨[⟨"a", .u8, .vInt 9⟩, ⟨"a", .u8, .vInt 2⟩]⟩ :=
  (get_set_first_match ⟨[⟨"a", .u8, .vInt 1⟩, ⟨"a", .u8, .vInt 2⟩]⟩ "a"
    (Value.vInt 9)).2.2 0 ⟨"a", .u8, .vInt 1⟩ rfl rfl
    (fun j fj hj _ => absurd hj (Nat.not_lt_zero j))

end PLCBridge
